import Mathlib

/-!
Shallow embedding of the `symdiff` crate (src/lib.rs): a merge-based symmetric
difference of two sorted sequences, delivered three ways — a pull iterator
(`SymDiffIter`), a dual-sink push variant (`diff_internal`) and a tagged
single-sink push variant (`diff_internal_alt`).  Rust iterators over a finite
sequence are modelled as Lean lists consumed from the front (`next()` is
`head?`/`tail`), `Option` heads are `Option`, and the `FnMut` sinks are
modelled by recording the calls made to them, in order.
-/

namespace SymDiff

/-- The `Tag` sum type from the source: marks which input sequence an emitted
item came from (`Tag::Left` / `Tag::Right`). -/
inductive Tag (T : Type) where
  | Left (x : T)
  | Right (x : T)
  deriving DecidableEq

/-- `Tag::unwrap`: extract the wrapped item regardless of side. -/
def Tag.unwrap {T : Type} : Tag T → T
  | .Left x => x
  | .Right x => x

/-- One call made by `diff_internal` to one of its two sinks: `fl x` is a call
of the left-only sink with `x`, `fr x` a call of the right-only sink. -/
inductive SinkCall (T : Type) where
  | fl (x : T)
  | fr (x : T)
  deriving DecidableEq

/-- Reading of a sink call as a tagged item: left-sink calls are Left-tagged,
right-sink calls are Right-tagged. -/
def SinkCall.interp {T : Type} : SinkCall T → Tag T
  | .fl x => Tag.Left x
  | .fr x => Tag.Right x

/-- Weight of an optional head: how many items it still holds. -/
def optW {α : Type} : Option α → Nat
  | none => 0
  | some _ => 1

theorem optW_head_tail {α : Type} (l : List α) :
    optW l.head? + l.tail.length = l.length := by
  cases l <;> simp [optW]
  omega

variable {T : Type} [LinearOrder T]

/-- The loop of `diff_internal` (src/lib.rs lines 49–88).  Arguments are the
two current heads `curr_left`, `curr_right` and the unconsumed remainders of
the `left` and `right` iterators; the result is the list of sink calls made,
in order.  `a.cmp(&b)` is `compare a b`. -/
def diff_internal_loop : Option T → Option T → List T → List T → List (SinkCall T)
  | none, none, _, _ => []
  | some item, none, ls, _ => SinkCall.fl item :: ls.map SinkCall.fl
  | none, some item, _, rs => SinkCall.fr item :: rs.map SinkCall.fr
  | some a, some b, ls, rs =>
    match compare a b with
    | .gt => SinkCall.fr b :: diff_internal_loop (some a) rs.head? ls rs.tail
    | .lt => SinkCall.fl a :: diff_internal_loop ls.head? (some b) ls.tail rs
    | .eq => diff_internal_loop ls.head? rs.head? ls.tail rs.tail
termination_by l r ls rs => optW l + optW r + ls.length + rs.length
decreasing_by
  all_goals cases ls <;> cases rs <;> simp [optW] <;> omega

/-- `diff_internal` (src/lib.rs lines 34–89): both iterators are primed with
`next()` and the loop runs to completion; the result is the trace of sink
calls. -/
def diff_internal (left right : List T) : List (SinkCall T) :=
  diff_internal_loop left.head? right.head? left.tail right.tail

/-- The loop of `diff_internal_alt` (src/lib.rs lines 105–144): same traversal
as `diff_internal_loop`, but the single sink `f` receives tagged items. -/
def diff_internal_alt_loop : Option T → Option T → List T → List T → List (Tag T)
  | none, none, _, _ => []
  | some item, none, ls, _ => Tag.Left item :: ls.map Tag.Left
  | none, some item, _, rs => Tag.Right item :: rs.map Tag.Right
  | some a, some b, ls, rs =>
    match compare a b with
    | .gt => Tag.Right b :: diff_internal_alt_loop (some a) rs.head? ls rs.tail
    | .lt => Tag.Left a :: diff_internal_alt_loop ls.head? (some b) ls.tail rs
    | .eq => diff_internal_alt_loop ls.head? rs.head? ls.tail rs.tail
termination_by l r ls rs => optW l + optW r + ls.length + rs.length
decreasing_by
  all_goals cases ls <;> cases rs <;> simp [optW] <;> omega

/-- `diff_internal_alt` (src/lib.rs lines 91–145). -/
def diff_internal_alt (left right : List T) : List (Tag T) :=
  diff_internal_alt_loop left.head? right.head? left.tail right.tail

/-- The pull-iterator state `SymDiffIter` (src/lib.rs lines 159–168): the two
source iterators and the one-slot lookahead buffer `rem`. -/
structure SymDiffIter (T : Type) where
  left : List T
  right : List T
  rem : Option (Tag T)

/-- `diff` (src/lib.rs lines 23–32): builds the iterator with `rem: None`. -/
def diff (left right : List T) : SymDiffIter T :=
  ⟨left, right, none⟩

/-- The `loop` of `SymDiffIter::next` (src/lib.rs lines 189–212).  Arguments
are the local `left`/`right` option heads and the unconsumed remainders of the
source iterators.  Result: the value returned by `next`, the value stored into
`self.rem` (which `take()` cleared at entry), and the remainders. -/
def next_loop : Option T → Option T → List T → List T →
    Option (Tag T) × Option (Tag T) × List T × List T
  | some a, none, ls, rs => (some (Tag.Left a), none, ls, rs)
  | none, some b, ls, rs => (some (Tag.Right b), none, ls, rs)
  | none, none, ls, rs => (none, none, ls, rs)
  | some a, some b, ls, rs =>
    match compare a b with
    | .gt => (some (Tag.Right b), some (Tag.Left a), ls, rs)
    | .lt => (some (Tag.Left a), some (Tag.Right b), ls, rs)
    | .eq => next_loop ls.head? rs.head? ls.tail rs.tail
termination_by l r ls rs => optW l + optW r + ls.length + rs.length
decreasing_by
  all_goals cases ls <;> cases rs <;> simp [optW] <;> omega

/-- `SymDiffIter::next` (src/lib.rs lines 180–213): `self.rem.take()` selects
the initial heads (a stashed `Left` is the left head and only the right
iterator is advanced, symmetrically for `Right`, otherwise both advance), then
the loop runs. -/
def SymDiffIter.next (s : SymDiffIter T) : Option (Tag T) × SymDiffIter T :=
  match s.rem with
  | none =>
    match next_loop s.left.head? s.right.head? s.left.tail s.right.tail with
    | (res, rem, ls, rs) => (res, ⟨ls, rs, rem⟩)
  | some (Tag.Left x) =>
    match next_loop (some x) s.right.head? s.left s.right.tail with
    | (res, rem, ls, rs) => (res, ⟨ls, rs, rem⟩)
  | some (Tag.Right x) =>
    match next_loop s.left.head? (some x) s.left.tail s.right with
    | (res, rem, ls, rs) => (res, ⟨ls, rs, rem⟩)

/-- Number of items an iterator state still holds. -/
def SymDiffIter.size (s : SymDiffIter T) : Nat :=
  s.left.length + s.right.length + optW s.rem

theorem size_mk (ls rs : List T) (rem : Option (Tag T)) :
    SymDiffIter.size ⟨ls, rs, rem⟩ = ls.length + rs.length + optW rem := rfl

theorem next_loop_size (l r : Option T) (ls rs : List T)
    (h : (next_loop l r ls rs).1.isSome = true) :
    (next_loop l r ls rs).2.2.1.length + (next_loop l r ls rs).2.2.2.length +
      optW (next_loop l r ls rs).2.1 + 1 ≤ optW l + optW r + ls.length + rs.length := by
  induction l, r, ls, rs using next_loop.induct with
  | case1 a ls rs => simp only [next_loop, optW]; omega
  | case2 b ls rs => simp only [next_loop, optW]; omega
  | case3 ls rs => simp [next_loop] at h
  | case4 a b ls rs hc => simp only [next_loop, hc, optW]; omega
  | case5 a b ls rs hc => simp only [next_loop, hc, optW]; omega
  | case6 a b ls rs hc ih =>
    have hu : next_loop (some a) (some b) ls rs = next_loop ls.head? rs.head? ls.tail rs.tail := by
      simp only [next_loop, hc]
    rw [hu] at h ⊢
    have h2 := ih h
    have hl := optW_head_tail ls
    have hr := optW_head_tail rs
    have ho : optW (some a) + optW (some b) = 2 := rfl
    omega

theorem next_size (s : SymDiffIter T) (t : Tag T) (s2 : SymDiffIter T)
    (h : s.next = (some t, s2)) : s2.size < s.size := by
  obtain ⟨left, right, rem⟩ := s
  have hl := optW_head_tail left
  have hr := optW_head_tail right
  cases rem with
  | none =>
    rcases hnl : next_loop left.head? right.head? left.tail right.tail with ⟨res, rem2, ls, rs⟩
    have hs := next_loop_size left.head? right.head? left.tail right.tail
    rw [hnl] at hs
    simp only [SymDiffIter.next, hnl] at h
    cases res with
    | none => simp at h
    | some t2 =>
      simp only [Prod.mk.injEq, Option.some.injEq] at h
      obtain ⟨rfl, rfl⟩ := h
      have hs2 := hs (by simp)
      dsimp only at hs2
      rw [size_mk, size_mk]
      have h0 : optW (none : Option (Tag T)) = 0 := rfl
      omega
  | some tg =>
    cases tg with
    | Left x =>
      rcases hnl : next_loop (some x) right.head? left right.tail with ⟨res, rem2, ls, rs⟩
      have hs := next_loop_size (some x) right.head? left right.tail
      rw [hnl] at hs
      simp only [SymDiffIter.next, hnl] at h
      cases res with
      | none => simp at h
      | some t2 =>
        simp only [Prod.mk.injEq, Option.some.injEq] at h
        obtain ⟨rfl, rfl⟩ := h
        have hs2 := hs (by simp)
        dsimp only at hs2
        rw [size_mk, size_mk]
        have h0 : optW (some (Tag.Left x)) = 1 := rfl
        have h1 : optW (some x) = 1 := rfl
        omega
    | Right x =>
      rcases hnl : next_loop left.head? (some x) left.tail right with ⟨res, rem2, ls, rs⟩
      have hs := next_loop_size left.head? (some x) left.tail right
      rw [hnl] at hs
      simp only [SymDiffIter.next, hnl] at h
      cases res with
      | none => simp at h
      | some t2 =>
        simp only [Prod.mk.injEq, Option.some.injEq] at h
        obtain ⟨rfl, rfl⟩ := h
        have hs2 := hs (by simp)
        dsimp only at hs2
        rw [size_mk, size_mk]
        have h0 : optW (some (Tag.Right x)) = 1 := rfl
        have h1 : optW (some x) = 1 := rfl
        omega

/-- Fully draining the pull iterator: call `next` until it yields `none`,
collecting the yielded items in order. -/
def SymDiffIter.drain (s : SymDiffIter T) : List (Tag T) :=
  match h : s.next with
  | (none, _) => []
  | (some t, s2) => t :: s2.drain
termination_by s.size
decreasing_by exact next_size s t s2 h

/-- Unfolding: right side exhausted means the rest of the left is drained. -/
theorem alt_nil_right (l : List T) : diff_internal_alt l [] = l.map Tag.Left := by
  cases l <;> simp [diff_internal_alt, diff_internal_alt_loop]

/-- Unfolding: left side exhausted means the rest of the right is drained. -/
theorem alt_nil_left (r : List T) : diff_internal_alt [] r = r.map Tag.Right := by
  cases r <;> simp [diff_internal_alt, diff_internal_alt_loop]

/-- Unfolding: a smaller left head is emitted Left and only the left advances. -/
theorem alt_cons_lt {a b : T} (h : a < b) (ls rs : List T) :
    diff_internal_alt (a :: ls) (b :: rs) = Tag.Left a :: diff_internal_alt ls (b :: rs) := by
  have hc : compare a b = Ordering.lt := compare_lt_iff_lt.mpr h
  show diff_internal_alt_loop (some a) (some b) ls rs = _
  simp only [diff_internal_alt_loop, hc]
  rfl

/-- Unfolding: a smaller right head is emitted Right and only the right advances. -/
theorem alt_cons_gt {a b : T} (h : b < a) (ls rs : List T) :
    diff_internal_alt (a :: ls) (b :: rs) = Tag.Right b :: diff_internal_alt (a :: ls) rs := by
  have hc : compare a b = Ordering.gt := compare_gt_iff_gt.mpr h
  show diff_internal_alt_loop (some a) (some b) ls rs = _
  simp only [diff_internal_alt_loop, hc]
  rfl

/-- Unfolding: equal heads cancel and both sides advance. -/
theorem alt_cons_eq {a b : T} (h : a = b) (ls rs : List T) :
    diff_internal_alt (a :: ls) (b :: rs) = diff_internal_alt ls rs := by
  have hc : compare a b = Ordering.eq := compare_eq_iff_eq.mpr h
  show diff_internal_alt_loop (some a) (some b) ls rs = _
  simp only [diff_internal_alt_loop, hc]
  rfl

theorem internal_nil_right (l : List T) : diff_internal l [] = l.map SinkCall.fl := by
  cases l <;> simp [diff_internal, diff_internal_loop]

theorem internal_nil_left (r : List T) : diff_internal [] r = r.map SinkCall.fr := by
  cases r <;> simp [diff_internal, diff_internal_loop]

theorem internal_cons_lt {a b : T} (h : a < b) (ls rs : List T) :
    diff_internal (a :: ls) (b :: rs) = SinkCall.fl a :: diff_internal ls (b :: rs) := by
  have hc : compare a b = Ordering.lt := compare_lt_iff_lt.mpr h
  show diff_internal_loop (some a) (some b) ls rs = _
  simp only [diff_internal_loop, hc]
  rfl

theorem internal_cons_gt {a b : T} (h : b < a) (ls rs : List T) :
    diff_internal (a :: ls) (b :: rs) = SinkCall.fr b :: diff_internal (a :: ls) rs := by
  have hc : compare a b = Ordering.gt := compare_gt_iff_gt.mpr h
  show diff_internal_loop (some a) (some b) ls rs = _
  simp only [diff_internal_loop, hc]
  rfl

theorem internal_cons_eq {a b : T} (h : a = b) (ls rs : List T) :
    diff_internal (a :: ls) (b :: rs) = diff_internal ls rs := by
  have hc : compare a b = Ordering.eq := compare_eq_iff_eq.mpr h
  show diff_internal_loop (some a) (some b) ls rs = _
  simp only [diff_internal_loop, hc]
  rfl

/-- Prepend a stashed Left lookahead value to the left remainder. -/
def stash_left {T : Type} : Option (Tag T) → List T → List T
  | some (Tag.Left x), ls => x :: ls
  | some (Tag.Right _), ls => ls
  | none, ls => ls

/-- Prepend a stashed Right lookahead value to the right remainder. -/
def stash_right {T : Type} : Option (Tag T) → List T → List T
  | some (Tag.Right x), rs => x :: rs
  | some (Tag.Left _), rs => rs
  | none, rs => rs

/-- The left items an iterator state still has to process, lookahead included. -/
def SymDiffIter.effLeft (s : SymDiffIter T) : List T := stash_left s.rem s.left

/-- The right items an iterator state still has to process, lookahead included. -/
def SymDiffIter.effRight (s : SymDiffIter T) : List T := stash_right s.rem s.right

/-- One run of the `next` loop produces the first item of the tagged push
variant's output on the same effective inputs, and leaves a state whose
effective inputs generate the rest. -/
theorem next_loop_spec (l r : Option T) (ls rs : List T) :
    (l = none → ls = []) → (r = none → rs = []) →
    diff_internal_alt_loop l r ls rs =
      match next_loop l r ls rs with
      | (none, _, _, _) => []
      | (some t, rem, ls2, rs2) =>
        t :: diff_internal_alt (stash_left rem ls2) (stash_right rem rs2) := by
  induction l, r, ls, rs using next_loop.induct with
  | case1 a ls rs =>
    intro hls hrs
    rw [hrs rfl]
    simp [next_loop, diff_internal_alt_loop, stash_left, stash_right, alt_nil_right]
  | case2 b ls rs =>
    intro hls hrs
    rw [hls rfl]
    simp [next_loop, diff_internal_alt_loop, stash_left, stash_right, alt_nil_left]
  | case3 ls rs =>
    intro hls hrs
    simp [next_loop, diff_internal_alt_loop]
  | case4 a b ls rs hc =>
    intro hls hrs
    simp only [diff_internal_alt_loop, next_loop, hc, stash_left, stash_right]
    rfl
  | case5 a b ls rs hc =>
    intro hls hrs
    simp only [diff_internal_alt_loop, next_loop, hc, stash_left, stash_right]
    rfl
  | case6 a b ls rs hc ih =>
    intro hls hrs
    have ih2 := ih (by cases ls <;> simp) (by cases rs <;> simp)
    have hu1 : diff_internal_alt_loop (some a) (some b) ls rs =
        diff_internal_alt_loop ls.head? rs.head? ls.tail rs.tail := by
      simp only [diff_internal_alt_loop, hc]
    have hu2 : next_loop (some a) (some b) ls rs =
        next_loop ls.head? rs.head? ls.tail rs.tail := by
      simp only [next_loop, hc]
    rw [hu1, hu2, ih2]

/-- One `next` call peels exactly the first item of the tagged push variant's
output on the state's effective inputs. -/
theorem next_spec (s : SymDiffIter T) :
    diff_internal_alt s.effLeft s.effRight =
      match s.next with
      | (none, _) => []
      | (some t, s2) => t :: diff_internal_alt s2.effLeft s2.effRight := by
  obtain ⟨left, right, rem⟩ := s
  cases rem with
  | none =>
    have hspec := next_loop_spec left.head? right.head? left.tail right.tail
      (by cases left <;> simp) (by cases right <;> simp)
    rcases hnl : next_loop left.head? right.head? left.tail right.tail with ⟨res, rem2, ls, rs⟩
    rw [hnl] at hspec
    simp only [SymDiffIter.next, hnl]
    cases res with
    | none =>
      simpa [SymDiffIter.effLeft, SymDiffIter.effRight, stash_left, stash_right,
        diff_internal_alt] using hspec
    | some t =>
      simpa [SymDiffIter.effLeft, SymDiffIter.effRight, stash_left, stash_right,
        diff_internal_alt] using hspec
  | some tg =>
    cases tg with
    | Left x =>
      have hspec := next_loop_spec (some x) right.head? left right.tail
        (by simp) (by cases right <;> simp)
      rcases hnl : next_loop (some x) right.head? left right.tail with ⟨res, rem2, ls, rs⟩
      rw [hnl] at hspec
      simp only [SymDiffIter.next, hnl]
      cases res with
      | none =>
        simpa [SymDiffIter.effLeft, SymDiffIter.effRight, stash_left, stash_right,
          diff_internal_alt] using hspec
      | some t =>
        simpa [SymDiffIter.effLeft, SymDiffIter.effRight, stash_left, stash_right,
          diff_internal_alt] using hspec
    | Right x =>
      have hspec := next_loop_spec left.head? (some x) left.tail right
        (by cases left <;> simp) (by simp)
      rcases hnl : next_loop left.head? (some x) left.tail right with ⟨res, rem2, ls, rs⟩
      rw [hnl] at hspec
      simp only [SymDiffIter.next, hnl]
      cases res with
      | none =>
        simpa [SymDiffIter.effLeft, SymDiffIter.effRight, stash_left, stash_right,
          diff_internal_alt] using hspec
      | some t =>
        simpa [SymDiffIter.effLeft, SymDiffIter.effRight, stash_left, stash_right,
          diff_internal_alt] using hspec

theorem drain_of_none (s s2 : SymDiffIter T) (h : s.next = (none, s2)) :
    s.drain = [] := by
  rw [SymDiffIter.drain.eq_def]
  split <;> simp_all

theorem drain_of_some (s : SymDiffIter T) (t : Tag T) (s2 : SymDiffIter T)
    (h : s.next = (some t, s2)) : s.drain = t :: s2.drain := by
  rw [SymDiffIter.drain.eq_def]
  split <;> simp_all

/-- Fully draining the pull iterator yields the tagged push variant's output
on the state's effective inputs. -/
theorem drain_eq (s : SymDiffIter T) :
    s.drain = diff_internal_alt s.effLeft s.effRight := by
  induction s using SymDiffIter.drain.induct with
  | case1 s s2 h =>
    rw [drain_of_none s s2 h]
    have := next_spec s
    rw [h] at this
    exact this.symm
  | case2 s t s2 h ih =>
    rw [drain_of_some s t s2 h]
    have := next_spec s
    rw [h] at this
    rw [this, ih]

/-- The dual-sink trace, read through the left-is-Left interpretation, is the
tagged single-sink trace, call for call. -/
theorem internal_loop_interp (l r : Option T) (ls rs : List T) :
    (diff_internal_loop l r ls rs).map SinkCall.interp = diff_internal_alt_loop l r ls rs := by
  induction l, r, ls, rs using diff_internal_loop.induct
  all_goals simp_all [diff_internal_loop, diff_internal_alt_loop, SinkCall.interp, Function.comp]

theorem internal_interp (l r : List T) :
    (diff_internal l r).map SinkCall.interp = diff_internal_alt l r :=
  internal_loop_interp l.head? r.head? l.tail r.tail

/-- The untagged values of the Left-tagged entries of an output, in order. -/
def left_values {A : Type} : List (Tag A) → List A
  | [] => []
  | Tag.Left x :: ts => x :: left_values ts
  | Tag.Right _ :: ts => left_values ts

/-- The untagged values of the Right-tagged entries of an output, in order. -/
def right_values {A : Type} : List (Tag A) → List A
  | [] => []
  | Tag.Left _ :: ts => right_values ts
  | Tag.Right x :: ts => x :: right_values ts

/-- The arguments of the left-sink calls of a dual-sink trace, in order. -/
def fl_values {A : Type} : List (SinkCall A) → List A
  | [] => []
  | SinkCall.fl x :: cs => x :: fl_values cs
  | SinkCall.fr _ :: cs => fl_values cs

/-- The arguments of the right-sink calls of a dual-sink trace, in order. -/
def fr_values {A : Type} : List (SinkCall A) → List A
  | [] => []
  | SinkCall.fl _ :: cs => fr_values cs
  | SinkCall.fr x :: cs => x :: fr_values cs

theorem left_values_map_left {A : Type} (l : List A) :
    left_values (l.map Tag.Left) = l := by
  induction l with
  | nil => rfl
  | cons a ts ih => simp [left_values, ih]

theorem left_values_map_right {A : Type} (l : List A) :
    left_values (l.map Tag.Right) = [] := by
  induction l with
  | nil => rfl
  | cons a ts ih => simp [left_values, ih]

theorem right_values_map_left {A : Type} (l : List A) :
    right_values (l.map Tag.Left) = [] := by
  induction l with
  | nil => rfl
  | cons a ts ih => simp [right_values, ih]

theorem right_values_map_right {A : Type} (l : List A) :
    right_values (l.map Tag.Right) = l := by
  induction l with
  | nil => rfl
  | cons a ts ih => simp [right_values, ih]

theorem fl_values_eq_left_values {A : Type} (cs : List (SinkCall A)) :
    fl_values cs = left_values (cs.map SinkCall.interp) := by
  induction cs with
  | nil => rfl
  | cons c cs ih => cases c <;> simp [fl_values, left_values, SinkCall.interp, ih]

theorem fr_values_eq_right_values {A : Type} (cs : List (SinkCall A)) :
    fr_values cs = right_values (cs.map SinkCall.interp) := by
  induction cs with
  | nil => rfl
  | cons c cs ih => cases c <;> simp [fr_values, right_values, SinkCall.interp, ih]

theorem mem_unwrap {A : Type} (out : List (Tag A)) (x : A) :
    x ∈ out.map Tag.unwrap ↔ x ∈ left_values out ∨ x ∈ right_values out := by
  induction out with
  | nil => simp [left_values, right_values]
  | cons t ts ih =>
    cases t <;> simp [left_values, right_values, Tag.unwrap, ih] <;> tauto

theorem unwrap_map_left {A : Type} (l : List A) :
    (l.map Tag.Left).map Tag.unwrap = l := by
  induction l with
  | nil => rfl
  | cons a ts ih => simp [Tag.unwrap, ih]

theorem unwrap_map_right {A : Type} (l : List A) :
    (l.map Tag.Right).map Tag.unwrap = l := by
  induction l with
  | nil => rfl
  | cons a ts ih => simp [Tag.unwrap, ih]

theorem alt_sublist_fuel :
    ∀ (n : Nat) (l r : List T), l.length + r.length ≤ n →
      List.Sublist (left_values (diff_internal_alt l r)) l ∧
      List.Sublist (right_values (diff_internal_alt l r)) r := by
  intro n
  induction n with
  | zero =>
    intro l r hn
    match l, r with
    | [], [] => simp [alt_nil_left, left_values, right_values]
    | a :: ls, r => simp at hn
    | l, b :: rs => simp at hn
  | succ n ih =>
    intro l r hn
    match l, r with
    | [], r =>
      rw [alt_nil_left, left_values_map_right, right_values_map_right]
      exact ⟨List.nil_sublist [], List.Sublist.refl r⟩
    | a :: ls, [] =>
      rw [alt_nil_right, left_values_map_left, right_values_map_left]
      exact ⟨List.Sublist.refl (a :: ls), List.nil_sublist []⟩
    | a :: ls, b :: rs =>
      rcases lt_trichotomy a b with h | h | h
      · rw [alt_cons_lt h]
        have h2 := ih ls (b :: rs) (by simp at hn ⊢; omega)
        exact ⟨by simpa [left_values] using List.Sublist.cons₂ a h2.1,
          by simpa [right_values] using h2.2⟩
      · rw [alt_cons_eq h]
        have h2 := ih ls rs (by simp at hn ⊢; omega)
        exact ⟨List.Sublist.cons a h2.1, List.Sublist.cons b h2.2⟩
      · rw [alt_cons_gt h]
        have h2 := ih (a :: ls) rs (by simp at hn ⊢; omega)
        exact ⟨by simpa [left_values] using h2.1,
          by simpa [right_values] using List.Sublist.cons₂ b h2.2⟩

theorem alt_sublist_left (l r : List T) :
    List.Sublist (left_values (diff_internal_alt l r)) l :=
  (alt_sublist_fuel (l.length + r.length) l r le_rfl).1

theorem alt_sublist_right (l r : List T) :
    List.Sublist (right_values (diff_internal_alt l r)) r :=
  (alt_sublist_fuel (l.length + r.length) l r le_rfl).2

theorem mem_of_mem_alt (l r : List T) (x : T)
    (h : x ∈ (diff_internal_alt l r).map Tag.unwrap) : x ∈ l ∨ x ∈ r := by
  rcases (mem_unwrap _ x).mp h with h2 | h2
  · exact Or.inl ((alt_sublist_left l r).mem h2)
  · exact Or.inr ((alt_sublist_right l r).mem h2)

theorem alt_length_fuel :
    ∀ (n : Nat) (l r : List T), l.length + r.length ≤ n →
      (diff_internal_alt l r).length ≤ l.length + r.length := by
  intro n
  induction n with
  | zero =>
    intro l r hn
    match l, r with
    | [], [] => simp [alt_nil_left]
    | a :: ls, r => simp at hn
    | l, b :: rs => simp at hn
  | succ n ih =>
    intro l r hn
    match l, r with
    | [], r => simp [alt_nil_left]
    | a :: ls, [] => simp [alt_nil_right]
    | a :: ls, b :: rs =>
      rcases lt_trichotomy a b with h | h | h
      · rw [alt_cons_lt h]
        have h2 := ih ls (b :: rs) (by simp at hn ⊢; omega)
        simp at h2 ⊢
        omega
      · rw [alt_cons_eq h]
        have h2 := ih ls rs (by simp at hn ⊢; omega)
        simp at h2 ⊢
        omega
      · rw [alt_cons_gt h]
        have h2 := ih (a :: ls) rs (by simp at hn ⊢; omega)
        simp at h2 ⊢
        omega

theorem alt_length_le (l r : List T) :
    (diff_internal_alt l r).length ≤ l.length + r.length :=
  alt_length_fuel (l.length + r.length) l r le_rfl

theorem alt_sorted_fuel :
    ∀ (n : Nat) (l r : List T), l.length + r.length ≤ n →
      l.Sorted (· ≤ ·) → r.Sorted (· ≤ ·) →
      ((diff_internal_alt l r).map Tag.unwrap).Sorted (· ≤ ·) := by
  intro n
  induction n with
  | zero =>
    intro l r hn hl hr
    match l, r with
    | [], [] => simp [alt_nil_left]
    | a :: ls, r => simp at hn
    | l, b :: rs => simp at hn
  | succ n ih =>
    intro l r hn hl hr
    match l, r with
    | [], r => rw [alt_nil_left, unwrap_map_right]; exact hr
    | a :: ls, [] => rw [alt_nil_right, unwrap_map_left]; exact hl
    | a :: ls, b :: rs =>
      have hl2 := List.sorted_cons.mp hl
      have hr2 := List.sorted_cons.mp hr
      rcases lt_trichotomy a b with h | h | h
      · rw [alt_cons_lt h]
        have h2 := ih ls (b :: rs) (by simp at hn ⊢; omega) hl2.2 hr
        rw [List.map_cons]
        rw [List.sorted_cons]
        refine ⟨?_, h2⟩
        intro y hy
        rcases mem_of_mem_alt ls (b :: rs) y hy with hm | hm
        · exact hl2.1 y hm
        · rcases List.mem_cons.mp hm with rfl | hm2
          · exact h.le
          · exact h.le.trans (hr2.1 y hm2)
      · rw [alt_cons_eq h]
        exact ih ls rs (by simp at hn ⊢; omega) hl2.2 hr2.2
      · rw [alt_cons_gt h]
        have h2 := ih (a :: ls) rs (by simp at hn ⊢; omega) hl hr2.2
        rw [List.map_cons]
        rw [List.sorted_cons]
        refine ⟨?_, h2⟩
        intro y hy
        rcases mem_of_mem_alt (a :: ls) rs y hy with hm | hm
        · rcases List.mem_cons.mp hm with rfl | hm2
          · exact h.le
          · exact h.le.trans (hl2.1 y hm2)
        · exact hr2.1 y hm

theorem alt_sorted (l r : List T) (hl : l.Sorted (· ≤ ·)) (hr : r.Sorted (· ≤ ·)) :
    ((diff_internal_alt l r).map Tag.unwrap).Sorted (· ≤ ·) :=
  alt_sorted_fuel (l.length + r.length) l r le_rfl hl hr

theorem alt_self (l : List T) : diff_internal_alt l l = [] := by
  induction l with
  | nil => simpa using alt_nil_left ([] : List T)
  | cons a ls ih => rw [alt_cons_eq rfl]; exact ih

theorem alt_mem_strict_fuel :
    ∀ (n : Nat) (l r : List T), l.length + r.length ≤ n →
      l.Sorted (· < ·) → r.Sorted (· < ·) → ∀ x : T,
      (x ∈ (diff_internal_alt l r).map Tag.unwrap ↔
        ((x ∈ l ∧ x ∉ r) ∨ (x ∈ r ∧ x ∉ l))) := by
  intro n
  induction n with
  | zero =>
    intro l r hn hl hr x
    match l, r with
    | [], [] => simp [alt_nil_left]
    | a :: ls, r => simp at hn
    | l, b :: rs => simp at hn
  | succ n ih =>
    intro l r hn hl hr x
    match l, r with
    | [], r => rw [alt_nil_left, unwrap_map_right]; simp
    | a :: ls, [] => rw [alt_nil_right, unwrap_map_left]; simp
    | a :: ls, b :: rs =>
      have hl2 := List.sorted_cons.mp hl
      have hr2 := List.sorted_cons.mp hr
      rcases lt_trichotomy a b with h | h | h
      · have hanb : a ≠ b := ne_of_lt h
        have hanrs : a ∉ rs := fun hm => lt_irrefl a (h.trans (hr2.1 a hm))
        have hanl : a ∉ ls := fun hm => lt_irrefl a (hl2.1 a hm)
        rw [alt_cons_lt h]
        have ihx := ih ls (b :: rs) (by simp at hn ⊢; omega) hl2.2 hr x
        simp only [List.map_cons, List.mem_cons, Tag.unwrap]
        rw [ihx]
        by_cases hx : x = a
        · subst hx
          simp [List.mem_cons, hanb, hanrs, hanl]
        · simp [List.mem_cons, hx]
      · subst h
        have hanl : a ∉ ls := fun hm => lt_irrefl a (hl2.1 a hm)
        have hanr : a ∉ rs := fun hm => lt_irrefl a (hr2.1 a hm)
        rw [alt_cons_eq rfl]
        have ihx := ih ls rs (by simp at hn ⊢; omega) hl2.2 hr2.2 x
        rw [ihx]
        by_cases hx : x = a
        · subst hx
          simp [List.mem_cons, hanl, hanr]
        · simp [List.mem_cons, hx]
      · have hbna : b ≠ a := ne_of_lt h
        have hbls : b ∉ ls := fun hm => lt_irrefl b (h.trans (hl2.1 b hm))
        have hbnr : b ∉ rs := fun hm => lt_irrefl b (hr2.1 b hm)
        rw [alt_cons_gt h]
        have ihx := ih (a :: ls) rs (by simp at hn ⊢; omega) hl hr2.2 x
        simp only [List.map_cons, List.mem_cons, Tag.unwrap]
        rw [ihx]
        by_cases hx : x = b
        · subst hx
          simp [List.mem_cons, hbna, hbls, hbnr]
        · simp [List.mem_cons, hx]

theorem alt_mem_strict (l r : List T) (hl : l.Sorted (· < ·)) (hr : r.Sorted (· < ·))
    (x : T) :
    x ∈ (diff_internal_alt l r).map Tag.unwrap ↔
      ((x ∈ l ∧ x ∉ r) ∨ (x ∈ r ∧ x ∉ l)) :=
  alt_mem_strict_fuel (l.length + r.length) l r le_rfl hl hr x

/-- Draining a fresh `diff` iterator gives the tagged push output. -/
theorem drain_diff (l r : List T) : (diff l r).drain = diff_internal_alt l r := by
  have h := drain_eq (diff l r)
  simpa [diff, SymDiffIter.effLeft, SymDiffIter.effRight, stash_left, stash_right] using h

/-- C1: for finite ascending-sorted inputs with no internal duplicates
(strictly sorted lists), the set of values obtained by stripping the
Left/Right tags from the complete output of the symmetric-difference
operation equals the mathematical symmetric difference of the value-sets of
the two inputs: a value is an output value exactly when it lies in exactly
one of the inputs. -/
theorem C1_strip_tags_is_set_symm_diff (A B : List T)
    (hA : A.Sorted (· < ·)) (hB : B.Sorted (· < ·)) (x : T) :
    x ∈ (diff_internal_alt A B).map Tag.unwrap ↔
      ((x ∈ A ∧ x ∉ B) ∨ (x ∈ B ∧ x ∉ A)) :=
  alt_mem_strict A B hA hB x

/-- Witness for C1 at A = [1,2], B = [2,3], x = 1. -/
theorem C1_strip_tags_is_set_symm_diff_witness :
    List.Sorted (· < ·) [(1:Int), 2] ∧ List.Sorted (· < ·) [(2:Int), 3] ∧
      ((1:Int) ∈ (diff_internal_alt [(1:Int), 2] [(2:Int), 3]).map Tag.unwrap ↔
        (((1:Int) ∈ [(1:Int), 2] ∧ (1:Int) ∉ [(2:Int), 3]) ∨
          ((1:Int) ∈ [(2:Int), 3] ∧ (1:Int) ∉ [(1:Int), 2]))) :=
  ⟨by decide, by decide,
    C1_strip_tags_is_set_symm_diff [(1:Int), 2] [(2:Int), 3] (by decide) (by decide) 1⟩

/-- C2: for every pair of inputs (sorted or not), the fully drained pull
iterator, the dual-sink push variant (left-sink calls read as Left, right-sink
calls as Right) and the tagged single-sink push variant produce exactly the
same sequence of (item, side) pairs, in the same order. -/
theorem C2_three_variants_agree (l r : List T) :
    (diff l r).drain = diff_internal_alt l r ∧
    (diff_internal l r).map SinkCall.interp = diff_internal_alt l r :=
  ⟨drain_diff l r, internal_interp l r⟩

/-- C3: on a merge step with both heads present: a smaller left head is
emitted Left and only the left cursor advances (the right head is unchanged);
a smaller right head is emitted Right and only the right cursor advances (the
left head is unchanged); equal heads emit nothing and both cursors advance.
Stated for the push-variant loop and for the pull iterator's inner loop. -/
theorem C3_merge_step_cases (a b : T) (ls rs : List T) :
    (a < b → diff_internal_alt_loop (some a) (some b) ls rs =
        Tag.Left a :: diff_internal_alt_loop ls.head? (some b) ls.tail rs) ∧
    (b < a → diff_internal_alt_loop (some a) (some b) ls rs =
        Tag.Right b :: diff_internal_alt_loop (some a) rs.head? ls rs.tail) ∧
    (a = b → diff_internal_alt_loop (some a) (some b) ls rs =
        diff_internal_alt_loop ls.head? rs.head? ls.tail rs.tail) ∧
    (a < b → next_loop (some a) (some b) ls rs =
        (some (Tag.Left a), some (Tag.Right b), ls, rs)) ∧
    (b < a → next_loop (some a) (some b) ls rs =
        (some (Tag.Right b), some (Tag.Left a), ls, rs)) ∧
    (a = b → next_loop (some a) (some b) ls rs =
        next_loop ls.head? rs.head? ls.tail rs.tail) := by
  refine ⟨fun h => ?_, fun h => ?_, fun h => ?_, fun h => ?_, fun h => ?_, fun h => ?_⟩
  · simp only [diff_internal_alt_loop, compare_lt_iff_lt.mpr h]
  · simp only [diff_internal_alt_loop, compare_gt_iff_gt.mpr h]
  · simp only [diff_internal_alt_loop, compare_eq_iff_eq.mpr h]
  · simp only [next_loop, compare_lt_iff_lt.mpr h]
  · simp only [next_loop, compare_gt_iff_gt.mpr h]
  · simp only [next_loop, compare_eq_iff_eq.mpr h]

/-- Witness for C3: each of the six cases applied at concrete inputs. -/
theorem C3_merge_step_cases_witness :
    (diff_internal_alt_loop (some (1:Int)) (some 2) [] [3] =
      Tag.Left 1 :: diff_internal_alt_loop none (some 2) [] [3]) ∧
    (diff_internal_alt_loop (some (2:Int)) (some 1) [] [3] =
      Tag.Right 1 :: diff_internal_alt_loop (some 2) (some 3) [] []) ∧
    (diff_internal_alt_loop (some (1:Int)) (some 1) [2] [3] =
      diff_internal_alt_loop (some 2) (some 3) [] []) ∧
    (next_loop (some (1:Int)) (some 2) [] [] =
      (some (Tag.Left 1), some (Tag.Right 2), [], [])) ∧
    (next_loop (some (2:Int)) (some 1) [] [] =
      (some (Tag.Right 1), some (Tag.Left 2), [], [])) ∧
    (next_loop (some (1:Int)) (some 1) [] [] = next_loop none none ([] : List Int) []) :=
  ⟨(C3_merge_step_cases 1 2 [] [3]).1 (by decide),
    (C3_merge_step_cases 2 1 [] [3]).2.1 (by decide),
    (C3_merge_step_cases 1 1 [2] [3]).2.2.1 rfl,
    (C3_merge_step_cases 1 2 [] []).2.2.2.1 (by decide),
    (C3_merge_step_cases 2 1 [] []).2.2.2.2.1 (by decide),
    (C3_merge_step_cases 1 1 [] []).2.2.2.2.2 rfl⟩

/-- C4: every variant terminates on all finite inputs (the embedded
functions are total, and the output length is bounded by the combined input
length) and is a deterministic function of the two inputs: two runs on equal
inputs produce equal outputs. -/
theorem C4_terminates_and_deterministic (l r l2 r2 : List T)
    (hl : l = l2) (hr : r = r2) :
    diff_internal_alt l r = diff_internal_alt l2 r2 ∧
    diff_internal l r = diff_internal l2 r2 ∧
    (diff l r).drain = (diff l2 r2).drain ∧
    (diff_internal_alt l r).length ≤ l.length + r.length ∧
    (diff_internal l r).length ≤ l.length + r.length ∧
    ((diff l r).drain).length ≤ l.length + r.length := by
  subst hl
  subst hr
  refine ⟨rfl, rfl, rfl, alt_length_le l r, ?_, ?_⟩
  · have h := internal_interp l r
    have h2 : (diff_internal l r).length = (diff_internal_alt l r).length := by
      rw [← h, List.length_map]
    rw [h2]
    exact alt_length_le l r
  · rw [drain_diff]
    exact alt_length_le l r

/-- Witness for C4 at l = [1,2] (unsorted on purpose is also fine), r = [2]. -/
theorem C4_terminates_and_deterministic_witness :
    ([(1:Int), 2] = [(1:Int), 2]) ∧ ([(2:Int)] = [(2:Int)]) ∧
      (diff_internal_alt [(1:Int), 2] [(2:Int)] = diff_internal_alt [(1:Int), 2] [(2:Int)] ∧
        diff_internal [(1:Int), 2] [(2:Int)] = diff_internal [(1:Int), 2] [(2:Int)] ∧
        (diff [(1:Int), 2] [(2:Int)]).drain = (diff [(1:Int), 2] [(2:Int)]).drain ∧
        (diff_internal_alt [(1:Int), 2] [(2:Int)]).length ≤
          ([(1:Int), 2]).length + ([(2:Int)]).length ∧
        (diff_internal [(1:Int), 2] [(2:Int)]).length ≤
          ([(1:Int), 2]).length + ([(2:Int)]).length ∧
        ((diff [(1:Int), 2] [(2:Int)]).drain).length ≤
          ([(1:Int), 2]).length + ([(2:Int)]).length) :=
  ⟨rfl, rfl, C4_terminates_and_deterministic [(1:Int), 2] [(2:Int)] [(1:Int), 2] [(2:Int)] rfl rfl⟩

/-- C5: when both inputs are non-decreasing, the untagged values of the
emitted output are in non-decreasing order. -/
theorem C5_output_nondecreasing (l r : List T)
    (hl : l.Sorted (· ≤ ·)) (hr : r.Sorted (· ≤ ·)) :
    ((diff_internal_alt l r).map Tag.unwrap).Sorted (· ≤ ·) :=
  alt_sorted l r hl hr

/-- Witness for C5 at l = [1,2], r = [2,3]. -/
theorem C5_output_nondecreasing_witness :
    List.Sorted (· ≤ ·) [(1:Int), 2] ∧ List.Sorted (· ≤ ·) [(2:Int), 3] ∧
      ((diff_internal_alt [(1:Int), 2] [(2:Int), 3]).map Tag.unwrap).Sorted (· ≤ ·) :=
  ⟨by decide, by decide,
    C5_output_nondecreasing [(1:Int), 2] [(2:Int), 3] (by decide) (by decide)⟩

/-- C6: duplicates cancel positionally, not as sets: for left [1,1,2] and
right [1,2,2] the complete output is exactly 1 tagged Left then 2 tagged
Right (left-sink call fl 1 then right-sink call fr 2 in the dual-sink
variant). -/
theorem C6_positional_duplicate_cancellation :
    diff_internal [(1:Int), 1, 2] [(1:Int), 2, 2] = [SinkCall.fl 1, SinkCall.fr 2] ∧
    diff_internal_alt [(1:Int), 1, 2] [(1:Int), 2, 2] = [Tag.Left 1, Tag.Right 2] ∧
    (diff [(1:Int), 1, 2] [(1:Int), 2, 2]).drain = [Tag.Left 1, Tag.Right 2] := by
  have halt : diff_internal_alt [(1:Int), 1, 2] [(1:Int), 2, 2] = [Tag.Left 1, Tag.Right 2] := by
    rw [alt_cons_eq rfl, alt_cons_lt (show (1:Int) < 2 by decide), alt_cons_eq rfl, alt_nil_left]
    rfl
  refine ⟨?_, halt, ?_⟩
  · rw [internal_cons_eq rfl, internal_cons_lt (show (1:Int) < 2 by decide),
      internal_cons_eq rfl, internal_nil_left]
    rfl
  · rw [drain_diff, halt]

/-- C7: once one input is exhausted, every remaining item of the other is
emitted in its original order, tagged to that side, with no further
comparisons (the loop equations ignore the opposite remainder entirely); an
empty input yields the other input fully tagged, and two empty inputs yield
an empty output. -/
theorem C7_exhaustion_drains_rest (l r ls rs : List T) (a : T) :
    diff_internal_alt l [] = l.map Tag.Left ∧
    diff_internal_alt [] r = r.map Tag.Right ∧
    diff_internal_alt ([] : List T) [] = [] ∧
    diff_internal l [] = l.map SinkCall.fl ∧
    diff_internal [] r = r.map SinkCall.fr ∧
    (diff l ([] : List T)).drain = l.map Tag.Left ∧
    (diff ([] : List T) r).drain = r.map Tag.Right ∧
    diff_internal_alt_loop (some a) none ls rs = Tag.Left a :: ls.map Tag.Left ∧
    diff_internal_alt_loop none (some a) ls rs = Tag.Right a :: rs.map Tag.Right := by
  refine ⟨alt_nil_right l, alt_nil_left r, by simpa using alt_nil_left ([] : List T),
    internal_nil_right l, internal_nil_left r, ?_, ?_, ?_, ?_⟩
  · rw [drain_diff, alt_nil_right]
  · rw [drain_diff, alt_nil_left]
  · simp [diff_internal_alt_loop]
  · simp [diff_internal_alt_loop]

/-- C8: running the symmetric difference with the same sequence A (any A,
duplicates allowed) on both sides yields an empty output in all three
variants. -/
theorem C8_self_diff_empty (A : List T) :
    diff_internal_alt A A = [] ∧
    diff_internal A A = [] ∧
    (diff A A).drain = [] := by
  have h1 := alt_self A
  refine ⟨h1, ?_, ?_⟩
  · have h2 := internal_interp A A
    rw [h1] at h2
    exact List.map_eq_nil_iff.mp h2
  · rw [drain_diff, h1]

/-- C9: the spec's worked example: left [1,2,4,5,6,8,13,15,16] and right
[2,3,4,5,6,7,8] give exactly 1(L), 3(R), 7(R), 13(L), 15(L), 16(L) in order,
and the cancelled equal values 2, 4, 5, 6, 8 are absent from the output. -/
theorem C9_worked_example :
    diff_internal_alt [(1:Int), 2, 4, 5, 6, 8, 13, 15, 16] [(2:Int), 3, 4, 5, 6, 7, 8] =
      [Tag.Left 1, Tag.Right 3, Tag.Right 7, Tag.Left 13, Tag.Left 15, Tag.Left 16] ∧
    (2:Int) ∉ (diff_internal_alt [(1:Int), 2, 4, 5, 6, 8, 13, 15, 16]
      [(2:Int), 3, 4, 5, 6, 7, 8]).map Tag.unwrap ∧
    (4:Int) ∉ (diff_internal_alt [(1:Int), 2, 4, 5, 6, 8, 13, 15, 16]
      [(2:Int), 3, 4, 5, 6, 7, 8]).map Tag.unwrap ∧
    (5:Int) ∉ (diff_internal_alt [(1:Int), 2, 4, 5, 6, 8, 13, 15, 16]
      [(2:Int), 3, 4, 5, 6, 7, 8]).map Tag.unwrap ∧
    (6:Int) ∉ (diff_internal_alt [(1:Int), 2, 4, 5, 6, 8, 13, 15, 16]
      [(2:Int), 3, 4, 5, 6, 7, 8]).map Tag.unwrap ∧
    (8:Int) ∉ (diff_internal_alt [(1:Int), 2, 4, 5, 6, 8, 13, 15, 16]
      [(2:Int), 3, 4, 5, 6, 7, 8]).map Tag.unwrap := by
  have halt : diff_internal_alt [(1:Int), 2, 4, 5, 6, 8, 13, 15, 16]
      [(2:Int), 3, 4, 5, 6, 7, 8] =
      [Tag.Left 1, Tag.Right 3, Tag.Right 7, Tag.Left 13, Tag.Left 15, Tag.Left 16] := by
    rw [alt_cons_lt (show (1:Int) < 2 by decide), alt_cons_eq rfl,
      alt_cons_gt (show (3:Int) < 4 by decide), alt_cons_eq rfl, alt_cons_eq rfl,
      alt_cons_eq rfl, alt_cons_gt (show (7:Int) < 8 by decide), alt_cons_eq rfl,
      alt_nil_right]
    rfl
  refine ⟨halt, ?_, ?_, ?_, ?_, ?_⟩ <;> rw [halt] <;> decide

/-- C10: for every pair of inputs, sorted or not, the Left-tagged output
values form in order a subsequence of the left input and the Right-tagged
output values a subsequence of the right input, in all three variants — no
item is invented, duplicated, or emitted on the wrong side. -/
theorem C10_outputs_are_subsequences (l r : List T) :
    List.Sublist (left_values (diff_internal_alt l r)) l ∧
    List.Sublist (right_values (diff_internal_alt l r)) r ∧
    List.Sublist (fl_values (diff_internal l r)) l ∧
    List.Sublist (fr_values (diff_internal l r)) r ∧
    List.Sublist (left_values ((diff l r).drain)) l ∧
    List.Sublist (right_values ((diff l r).drain)) r := by
  have h1 := alt_sublist_left l r
  have h2 := alt_sublist_right l r
  refine ⟨h1, h2, ?_, ?_, ?_, ?_⟩
  · rw [fl_values_eq_left_values, internal_interp]
    exact h1
  · rw [fr_values_eq_right_values, internal_interp]
    exact h2
  · rw [drain_diff]
    exact h1
  · rw [drain_diff]
    exact h2

end SymDiff
